import Mathlib

/-!
Verification of the NSGA-II-style multi-objective optimization engine described in
the repository's documentation (getting-started tutorial, Part II).

The repository snapshot contains the tutorial notebook
`docs/source/getting_started/part_2.ipynb`; the engine itself (the `pymoo`
package: domination comparison, non-dominated sorting, crowding distance,
survival, variation operators, `minimize`) is used by the notebook but its
source is not part of the snapshot, so those components are modelled from the
specification text.  `MyProblem._evaluate` is embedded directly from the
notebook's code cell.

Objective, constraint and decision values are modelled as rationals.
-/

namespace PymooSpec

/-- Modelled from the spec (§3 Data Model): an `Individual` owns its decision
vector `X`, objective vector `F` (minimization sense), constraint violation
`cv` (sum of positive constraint violations, `0` iff feasible), and the derived
attributes `rank` and crowding distance `cd` (`⊤` is the `+∞` sentinel). -/
structure Individual where
  X : List ℚ := []
  F : List ℚ := []
  cv : ℚ := 0
  rank : Nat := 0
  cd : WithTop ℚ := 0
deriving DecidableEq

instance : Inhabited Individual := ⟨{}⟩

/-- Modelled from the spec (§4.1): standard Pareto dominance over objective
vectors — every component `≤` and at least one component `<`. -/
def parDom (f g : List ℚ) : Bool :=
  ((f.zip g).all fun p => decide (p.1 ≤ p.2)) &&
    ((f.zip g).any fun p => decide (p.1 < p.2))

/-- Modelled from the spec (§4.1 Domination Comparator): constrained dominance.
If either individual is infeasible, strictly smaller `cv` dominates, equal `cv`
falls through to Pareto dominance on the objectives. -/
def dominates (a b : Individual) : Bool :=
  if 0 < a.cv ∨ 0 < b.cv then
    if a.cv < b.cv then true
    else if b.cv < a.cv then false
    else parDom a.F b.F
  else parDom a.F b.F

theorem mem_zip_self {f : List ℚ} {p : ℚ × ℚ} (hp : p ∈ f.zip f) : p.1 = p.2 := by
  induction f with
  | nil => cases hp
  | cons a t ih =>
    rw [List.zip_cons_cons, List.mem_cons] at hp
    rcases hp with h | h
    · rw [h]
    · exact ih h

theorem parDom_irrefl (f : List ℚ) : parDom f f = false := by
  unfold parDom
  rw [Bool.and_eq_false_iff]
  right
  rw [List.any_eq_false]
  intro p hp
  simp [mem_zip_self hp]

theorem dominates_irrefl (a : Individual) : dominates a a = false := by
  unfold dominates
  simp [parDom_irrefl]

/-- When both constraint violations are nonnegative (as they are for real
individuals, `cv` being a sum of positive violations), constrained dominance
collapses to: smaller `cv` wins, equal `cv` falls through to Pareto dominance. -/
theorem dominates_eq (a b : Individual) (ha : 0 ≤ a.cv) (hb : 0 ≤ b.cv) :
    dominates a b = (if a.cv < b.cv then true
      else if b.cv < a.cv then false else parDom a.F b.F) := by
  unfold dominates
  by_cases h1 : a.cv < b.cv
  · have : 0 < b.cv := lt_of_le_of_lt ha h1
    simp [h1, this]
  · by_cases h2 : b.cv < a.cv
    · have : 0 < a.cv := lt_of_le_of_lt hb h2
      simp [h1, h2, this]
    · by_cases h3 : 0 < a.cv ∨ 0 < b.cv
      · simp [h1, h2, h3]
      · simp [h1, h2, h3]

theorem parDom_le {f g : List ℚ} (h : parDom f g = true) :
    ∀ p ∈ f.zip g, p.1 ≤ p.2 := by
  unfold parDom at h
  rw [Bool.and_eq_true] at h
  intro p hp
  have := List.all_eq_true.1 h.1 p hp
  simpa using this

theorem allLe_trans : ∀ {f g h : List ℚ}, f.length = g.length →
    g.length = h.length →
    (∀ p ∈ f.zip g, p.1 ≤ p.2) → (∀ p ∈ g.zip h, p.1 ≤ p.2) →
    ∀ p ∈ f.zip h, p.1 ≤ p.2 := by
  intro f
  induction f with
  | nil => intro g h _ _ _ _ p hp; cases hp
  | cons a t ih =>
    intro g h hfg hgh h1 h2 p hp
    cases g with
    | nil => cases hfg
    | cons b tg =>
      cases h with
      | nil => cases hgh
      | cons c th =>
        rw [List.zip_cons_cons, List.mem_cons] at hp
        rcases hp with hp | hp
        · subst hp
          exact le_trans (h1 (a, b) (by simp)) (h2 (b, c) (by simp))
        · exact ih (by simpa using hfg) (by simpa using hgh)
            (fun q hq => h1 q (by simp [hq])) (fun q hq => h2 q (by simp [hq]))
            p hp

theorem anyLt_allLe_trans : ∀ {f g h : List ℚ}, f.length = g.length →
    g.length = h.length →
    ((f.zip g).any fun p => decide (p.1 < p.2)) = true →
    (∀ p ∈ g.zip h, p.1 ≤ p.2) →
    ((f.zip h).any fun p => decide (p.1 < p.2)) = true := by
  intro f
  induction f with
  | nil => intro g h _ _ hlt _; simp at hlt
  | cons a t ih =>
    intro g h hfg hgh hlt hle
    cases g with
    | nil => cases hfg
    | cons b tg =>
      cases h with
      | nil => cases hgh
      | cons c th =>
        rw [List.zip_cons_cons, List.any_cons, Bool.or_eq_true] at hlt
        rw [List.zip_cons_cons, List.any_cons, Bool.or_eq_true]
        rcases hlt with hlt | hlt
        · left
          have hbc : b ≤ c := hle (b, c) (by simp)
          have hab : a < b := by simpa using hlt
          simpa using lt_of_lt_of_le hab hbc
        · right
          exact ih (by simpa using hfg) (by simpa using hgh) hlt
            (fun q hq => hle q (by simp [hq]))

theorem parDom_trans {f g h : List ℚ} (hfg : f.length = g.length)
    (hgh : g.length = h.length) (h1 : parDom f g = true)
    (h2 : parDom g h = true) : parDom f h = true := by
  have h2le := parDom_le h2
  have h1le := parDom_le h1
  unfold parDom at h1 ⊢
  rw [Bool.and_eq_true] at h1 ⊢
  constructor
  · rw [List.all_eq_true]
    intro p hp
    simpa using allLe_trans hfg hgh h1le h2le p hp
  · exact anyLt_allLe_trans hfg hgh h1.2 h2le

theorem dominates_trans {a b c : Individual} (ha : 0 ≤ a.cv) (hb : 0 ≤ b.cv)
    (hc : 0 ≤ c.cv) (hab : a.F.length = b.F.length)
    (hbc : b.F.length = c.F.length) (h1 : dominates a b = true)
    (h2 : dominates b c = true) : dominates a c = true := by
  rw [dominates_eq a b ha hb] at h1
  rw [dominates_eq b c hb hc] at h2
  rw [dominates_eq a c ha hc]
  rcases lt_trichotomy a.cv b.cv with h | h | h
  · rcases lt_trichotomy b.cv c.cv with h' | h' | h'
    · simp [lt_trans h h']
    · simp [h.trans_eq h']
    · rw [if_neg (asymm h'), if_pos h'] at h2
      cases h2
  · rw [if_neg (by simp [h]), if_neg (by simp [h])] at h1
    rcases lt_trichotomy b.cv c.cv with h' | h' | h'
    · simp [h.trans_lt h']
    · rw [if_neg (by simp [h']), if_neg (by simp [h'])] at h2
      have hac : a.cv = c.cv := h.trans h'
      rw [if_neg (by simp [hac]), if_neg (by simp [hac])]
      exact parDom_trans hab hbc h1 h2
    · rw [if_neg (asymm h'), if_pos h'] at h2
      cases h2
  · rw [if_neg (asymm h), if_pos h] at h1
    cases h1

/-- C1: the Domination Comparator implements constrained dominance: with
nonnegative constraint violations, strictly smaller `cv` dominates (so a
feasible individual dominates any infeasible one regardless of objectives),
and equal `cv` (in particular, two feasible individuals) falls through to
Pareto dominance on the objective vectors. -/
theorem C1_constrained_dominance (a b : Individual) (ha : 0 ≤ a.cv)
    (hb : 0 ≤ b.cv) :
    (a.cv < b.cv → dominates a b = true ∧ dominates b a = false) ∧
    (a.cv = 0 → 0 < b.cv → dominates a b = true ∧ dominates b a = false) ∧
    (a.cv = b.cv → (dominates a b = true ↔
      (∀ p ∈ a.F.zip b.F, p.1 ≤ p.2) ∧ ∃ p ∈ a.F.zip b.F, p.1 < p.2)) := by
  refine ⟨?_, ?_, ?_⟩
  · intro hlt
    rw [dominates_eq a b ha hb, dominates_eq b a hb ha]
    simp [hlt, asymm hlt]
  · intro ha0 hb0
    rw [dominates_eq a b ha hb, dominates_eq b a hb ha]
    have hlt : a.cv < b.cv := ha0 ▸ hb0
    simp [hlt, asymm hlt]
  · intro heq
    rw [dominates_eq a b ha hb, heq]
    simp only [lt_irrefl, if_false]
    unfold parDom
    rw [Bool.and_eq_true, List.all_eq_true, List.any_eq_true]
    constructor
    · rintro ⟨h1, p, hp, hlt⟩
      exact ⟨fun q hq => by simpa using h1 q hq, p, hp, by simpa using hlt⟩
    · rintro ⟨h1, p, hp, hlt⟩
      exact ⟨fun q hq => by simpa using h1 q hq, p, hp, by simpa using hlt⟩

/-- Witness for C1 at concrete individuals. -/
theorem C1_constrained_dominance_witness :
    (0:ℚ) ≤ 0 ∧ (0:ℚ) ≤ 1 ∧
    (dominates { F := [5, 5], cv := 0 } { F := [0, 0], cv := 1 } = true ∧
      dominates { F := [0, 0], cv := 1 } { F := [5, 5], cv := 0 } = false) := by
  refine ⟨le_refl 0, by norm_num, ?_⟩
  exact (C1_constrained_dominance { F := [5, 5], cv := 0 }
    { F := [0, 0], cv := 1 } (le_refl 0) (by norm_num)).2.1 rfl (by norm_num)

/-! ### Non-dominated sorting -/

/-- Index access into a population; out-of-range indices give the default
individual (they never occur along valid executions). -/
def ind (pop : List Individual) (i : Nat) : Individual :=
  pop.getD i default

/-- Dominance between population positions. -/
def domI (pop : List Individual) (i j : Nat) : Bool :=
  dominates (ind pop i) (ind pop j)

/-- Modelled from the spec (§4.2): the non-dominated subset of the remaining
indices — those dominated by no remaining individual. -/
def ndFront (pop : List Individual) (rem : List Nat) : List Nat :=
  rem.filter fun i => !(rem.any fun j => domI pop j i)

/-- Modelled from the spec (§4.2 fast non-dominated sort): repeatedly peel the
current non-dominated subset off the remaining individuals; each peeled subset
is the next front.  `fuel` bounds the number of fronts (at most the population
size). -/
def ndsGo (pop : List Individual) : Nat → List Nat → List (List Nat)
  | 0, _ => []
  | fuel + 1, rem =>
    if rem = [] then []
    else
      ndFront pop rem ::
        ndsGo pop fuel (rem.filter fun i => !((ndFront pop rem).contains i))

/-- Modelled from the spec (§4.2): non-dominated sorting of a whole population,
returning the ordered fronts as lists of positions. -/
def fastNonDominatedSort (pop : List Individual) : List (List Nat) :=
  ndsGo pop pop.length (List.range pop.length)

/-- Well-formedness of a population: a fixed number of objectives and
nonnegative constraint violations (both invariants of the real system, where
`n_obj` is fixed by the problem and `cv` is a sum of positive violations). -/
def WellFormed (pop : List Individual) (m : Nat) : Prop :=
  ∀ a ∈ pop, a.F.length = m ∧ 0 ≤ a.cv

theorem ind_mem {pop : List Individual} {i : Nat} (h : i < pop.length) :
    ind pop i ∈ pop := by
  unfold ind
  rw [List.getD_eq_getElem pop default h]
  exact List.getElem_mem h

theorem domI_trans {pop : List Individual} {m : Nat} (hw : WellFormed pop m)
    {i j k : Nat} (hi : i < pop.length) (hj : j < pop.length)
    (hk : k < pop.length) (h1 : domI pop i j = true)
    (h2 : domI pop j k = true) : domI pop i k = true := by
  obtain ⟨hfi, hci⟩ := hw _ (ind_mem hi)
  obtain ⟨hfj, hcj⟩ := hw _ (ind_mem hj)
  obtain ⟨hfk, hck⟩ := hw _ (ind_mem hk)
  exact dominates_trans hci hcj hck (hfi.trans hfj.symm) (hfj.trans hfk.symm)
    h1 h2

/-- Any finite nonempty set carrying an irreflexive, transitive boolean
relation has a minimal element. -/
theorem exists_minimal {α : Type} (r : α → α → Bool) :
    ∀ (l : List α), (∀ a ∈ l, r a a = false) →
    (∀ a ∈ l, ∀ b ∈ l, ∀ c ∈ l, r a b = true → r b c = true → r a c = true) →
    l ≠ [] → ∃ m ∈ l, ∀ a ∈ l, r a m = false := by
  intro l
  induction l with
  | nil => intro _ _ h; exact absurd rfl h
  | cons a t ih =>
    intro hirr htrans _
    by_cases ht : t = []
    · subst ht
      exact ⟨a, by simp, fun b hb => by
        rw [List.mem_singleton] at hb
        exact hb ▸ hirr a (by simp)⟩
    · obtain ⟨m, hm, hmin⟩ := ih (fun x hx => hirr x (by simp [hx]))
        (fun x hx y hy z hz => htrans x (by simp [hx]) y (by simp [hy])
          z (by simp [hz])) ht
      by_cases ham : r a m = true
      · refine ⟨a, by simp, fun y hy => ?_⟩
        rw [List.mem_cons] at hy
        rcases hy with hy | hy
        · exact hy ▸ hirr a (by simp)
        · by_contra hcon
          rw [Bool.not_eq_false] at hcon
          have : r y m = true := htrans y (by simp [hy]) a (by simp)
            m (by simp [hm]) hcon ham
          rw [hmin y hy] at this
          cases this
      · refine ⟨m, by simp [hm], fun y hy => ?_⟩
        rw [List.mem_cons] at hy
        rcases hy with hy | hy
        · subst hy
          exact Bool.of_not_eq_true ham
        · exact hmin y hy

theorem ndFront_subset {pop : List Individual} {rem : List Nat} :
    ∀ i ∈ ndFront pop rem, i ∈ rem := fun _ hi =>
  List.mem_of_mem_filter hi

theorem ndFront_not_dominated {pop : List Individual} {rem : List Nat}
    {i : Nat} (hi : i ∈ ndFront pop rem) :
    ∀ j ∈ rem, domI pop j i = false := by
  have h2 : (rem.any fun j => domI pop j i) = false := by
    have := List.of_mem_filter hi
    rwa [Bool.not_eq_true'] at this
  rw [List.any_eq_false] at h2
  intro j hj
  simpa using h2 j hj

theorem ndFront_nonempty {pop : List Individual} {m : Nat} {rem : List Nat}
    (hw : WellFormed pop m) (hv : ∀ i ∈ rem, i < pop.length)
    (hne : rem ≠ []) : ndFront pop rem ≠ [] := by
  obtain ⟨mn, hmem, hmin⟩ := exists_minimal (fun i j => domI pop i j) rem
    (fun i _ => dominates_irrefl _)
    (fun i hi j hj k hk => domI_trans hw (hv i hi) (hv j hj) (hv k hk))
    hne
  have : mn ∈ ndFront pop rem := by
    unfold ndFront
    rw [List.mem_filter]
    refine ⟨hmem, ?_⟩
    rw [Bool.not_eq_true', List.any_eq_false]
    intro j hj
    simpa using hmin j hj
  intro hcon
  rw [hcon] at this
  cases this

theorem length_filter_lt {α : Type} (p : α → Bool) :
    ∀ (l : List α) (x : α), x ∈ l → p x = false →
    (l.filter p).length < l.length := by
  intro l
  induction l with
  | nil => intro x hx; cases hx
  | cons a t ih =>
    intro x hx hpx
    rw [List.mem_cons] at hx
    by_cases hpa : p a = true
    · rcases hx with hx | hx
      · rw [← hx] at hpa
        rw [hpa] at hpx
        cases hpx
      · rw [List.filter_cons_of_pos hpa, List.length_cons, List.length_cons]
        exact Nat.succ_lt_succ (ih x hx hpx)
    · rw [List.filter_cons_of_neg hpa, List.length_cons]
      exact Nat.lt_succ_of_le (List.length_filter_le p t)

/-- The indices left over after peeling the current non-dominated front are
exactly the dominated remainder. -/
theorem rem_filter_eq {pop : List Individual} (rem : List Nat) :
    (rem.filter fun i => !((ndFront pop rem).contains i)) =
      rem.filter fun i => !(!(rem.any fun j => domI pop j i)) := by
  apply List.filter_congr
  intro i hi
  have hmem : i ∈ ndFront pop rem ↔
      (rem.any fun j => domI pop j i) = false := by
    unfold ndFront
    rw [List.mem_filter]
    simp [hi]
  cases hb : (rem.any fun j => domI pop j i) with
  | false =>
    have hc : (ndFront pop rem).contains i = true :=
      List.elem_iff.2 (hmem.2 hb)
    rw [hc]
    rfl
  | true =>
    have hc : (ndFront pop rem).contains i = false := by
      rw [Bool.eq_false_iff]
      intro hcon
      rw [hmem.1 (List.elem_iff.1 hcon)] at hb
      cases hb
    rw [hc]
    rfl

theorem front_append_rest_perm {pop : List Individual} (rem : List Nat) :
    (ndFront pop rem ++
      (rem.filter fun i => !((ndFront pop rem).contains i))).Perm rem := by
  rw [rem_filter_eq]
  exact List.filter_append_perm _ rem

theorem ndsGo_flatten_perm {pop : List Individual} {m : Nat}
    (hw : WellFormed pop m) :
    ∀ (fuel : Nat) (rem : List Nat), rem.length ≤ fuel →
    (∀ i ∈ rem, i < pop.length) → (ndsGo pop fuel rem).flatten.Perm rem := by
  intro fuel
  induction fuel with
  | zero =>
    intro rem hlen _
    rw [Nat.le_zero] at hlen
    rw [List.eq_nil_of_length_eq_zero hlen]
    simp [ndsGo]
  | succ fuel ih =>
    intro rem hlen hv
    by_cases hne : rem = []
    · subst hne
      simp [ndsGo]
    · have hfne : ndFront pop rem ≠ [] := ndFront_nonempty hw hv hne
      obtain ⟨x, hx⟩ := List.exists_mem_of_ne_nil _ hfne
      have hxrem : x ∈ rem := ndFront_subset x hx
      have hxp : (!((ndFront pop rem).contains x)) = false := by
        simp [List.elem_eq_mem, hx]
      have hshrink :
          (rem.filter fun i => !((ndFront pop rem).contains i)).length <
            rem.length := length_filter_lt _ rem x hxrem hxp
      rw [ndsGo, if_neg hne, List.flatten_cons]
      have ihrec := ih (rem.filter fun i => !((ndFront pop rem).contains i))
        (Nat.le_of_lt_succ (Nat.lt_of_lt_of_le hshrink hlen))
        (fun i hi => hv i (List.mem_of_mem_filter hi))
      exact ((ihrec.append_left (ndFront pop rem)).trans
        (front_append_rest_perm rem))

theorem nds_flatten_perm {pop : List Individual} {m : Nat}
    (hw : WellFormed pop m) :
    (fastNonDominatedSort pop).flatten.Perm (List.range pop.length) := by
  unfold fastNonDominatedSort
  exact ndsGo_flatten_perm hw pop.length (List.range pop.length)
    (by rw [List.length_range]) (fun i hi => List.mem_range.1 hi)

/-- C2: non-dominated sorting partitions the population completely and
disjointly — the concatenation of the fronts is a permutation of the full set
of population positions, so every individual lands in exactly one front. -/
theorem C2_nds_partition (pop : List Individual) (m : Nat)
    (hw : WellFormed pop m) :
    (fastNonDominatedSort pop).flatten.Perm (List.range pop.length) :=
  nds_flatten_perm hw

/-- Witness for C2 on a concrete three-individual population. -/
theorem C2_nds_partition_witness :
    WellFormed [{ F := [0, 1], cv := 0 }, { F := [1, 0], cv := 0 },
      { F := [2, 2], cv := 0 }] 2 ∧
    (fastNonDominatedSort [{ F := [0, 1], cv := 0 }, { F := [1, 0], cv := 0 },
      { F := [2, 2], cv := 0 }]).flatten.Perm (List.range 3) := by
  refine ⟨?_, ?_⟩
  · intro a ha
    fin_cases ha <;> exact ⟨rfl, le_refl 0⟩
  · exact C2_nds_partition _ 2 (by
      intro a ha
      fin_cases ha <;> exact ⟨rfl, le_refl 0⟩)

theorem ndsGo_within (pop : List Individual) :
    ∀ (fuel : Nat) (rem : List Nat) (k : Nat),
    ∀ i ∈ (ndsGo pop fuel rem).getD k [],
    ∀ j ∈ (ndsGo pop fuel rem).getD k [], domI pop j i = false := by
  intro fuel
  induction fuel with
  | zero =>
    intro rem k i hi
    rw [ndsGo, List.getD_nil] at hi
    cases hi
  | succ fuel ih =>
    intro rem k i hi j hj
    by_cases hne : rem = []
    · rw [ndsGo, if_pos hne, List.getD_nil] at hi
      cases hi
    · rw [ndsGo, if_neg hne] at hi hj
      cases k with
      | zero =>
        rw [List.getD_cons_zero] at hi hj
        exact ndFront_not_dominated hi j (ndFront_subset j hj)
      | succ k =>
        rw [List.getD_cons_succ] at hi hj
        exact ih _ k i hi j hj

theorem ndsGo_head (pop : List Individual) (fuel : Nat) (rem : List Nat)
    (h : ndsGo pop fuel rem ≠ []) :
    (ndsGo pop fuel rem).getD 0 [] = ndFront pop rem ∧ rem ≠ [] := by
  cases fuel with
  | zero => exact absurd (by rw [ndsGo]) h
  | succ fuel =>
    by_cases hne : rem = []
    · exact absurd (by rw [ndsGo, if_pos hne]) h
    · rw [ndsGo, if_neg hne]
      exact ⟨List.getD_cons_zero, hne⟩

theorem ndsGo_consecutive {pop : List Individual} :
    ∀ (fuel : Nat) (rem : List Nat),
    ∀ (k : Nat), ∀ i ∈ (ndsGo pop fuel rem).getD (k + 1) [],
    ∃ j ∈ (ndsGo pop fuel rem).getD k [], domI pop j i = true := by
  intro fuel
  induction fuel with
  | zero =>
    intro rem k i hi
    rw [ndsGo, List.getD_nil] at hi
    cases hi
  | succ fuel ih =>
    intro rem k i hi
    by_cases hne : rem = []
    · rw [ndsGo, if_pos hne, List.getD_nil] at hi
      cases hi
    · rw [ndsGo, if_neg hne] at hi ⊢
      cases k with
      | zero =>
        rw [List.getD_cons_succ] at hi
        rw [List.getD_cons_zero]
        by_cases hrest : ndsGo pop fuel
            (rem.filter fun i => !((ndFront pop rem).contains i)) = []
        · rw [hrest, List.getD_nil] at hi
          cases hi
        · obtain ⟨hhead, _⟩ := ndsGo_head pop fuel _ hrest
          rw [hhead] at hi
          have hirem' : i ∈ rem.filter
              fun i => !((ndFront pop rem).contains i) := ndFront_subset i hi
          rw [List.mem_filter] at hirem'
          obtain ⟨hirem, hnc⟩ := hirem'
          have hinf : i ∉ ndFront pop rem := by
            intro hcon
            rw [Bool.not_eq_true', Bool.eq_false_iff] at hnc
            exact hnc (List.elem_iff.2 hcon)
          -- some j in rem dominates i; it cannot be in the remainder, so it
          -- lies in the current front
          have hpred : (!(rem.any fun j => domI pop j i)) = false := by
            by_cases hp : (!(rem.any fun j => domI pop j i)) = true
            · exact absurd (List.mem_filter.2 ⟨hirem, hp⟩) hinf
            · exact Bool.of_not_eq_true hp
          rw [Bool.not_eq_false', List.any_eq_true] at hpred
          obtain ⟨j, hjrem, hdom⟩ := hpred
          refine ⟨j, ?_, hdom⟩
          by_cases hjf : j ∈ ndFront pop rem
          · exact hjf
          · exfalso
            have hjrem' : j ∈ rem.filter
                fun i => !((ndFront pop rem).contains i) := by
              rw [List.mem_filter]
              refine ⟨hjrem, ?_⟩
              rw [Bool.not_eq_eq_eq_not, Bool.not_true, Bool.eq_false_iff]
              intro hcon
              exact hjf (List.elem_iff.1 hcon)
            have := ndFront_not_dominated hi j hjrem'
            rw [hdom] at this
            cases this
      | succ k =>
        rw [List.getD_cons_succ] at hi
        rw [List.getD_cons_succ]
        exact ih _ k i hi

/-- C3: in the output of non-dominated sorting, no individual of front `k`
dominates another individual of the same front, and every individual of front
`k+1` is dominated by at least one individual of front `k`. -/
theorem C3_front_structure (pop : List Individual) :
    (∀ k, ∀ i ∈ (fastNonDominatedSort pop).getD k [],
      ∀ j ∈ (fastNonDominatedSort pop).getD k [], domI pop j i = false) ∧
    (∀ k, ∀ i ∈ (fastNonDominatedSort pop).getD (k + 1) [],
      ∃ j ∈ (fastNonDominatedSort pop).getD k [], domI pop j i = true) := by
  unfold fastNonDominatedSort
  exact ⟨fun k => ndsGo_within pop pop.length (List.range pop.length) k,
    fun k => ndsGo_consecutive pop.length (List.range pop.length) k⟩

/-! ### Crowding distance -/

/-- Objective value `m` of the individual at position `i`. -/
def obj (pop : List Individual) (i m : Nat) : ℚ :=
  (ind pop i).F.getD m 0

/-- The by-objective-`m` comparison used to sort a front. -/
def objLe (pop : List Individual) (m i j : Nat) : Bool :=
  decide (obj pop i m ≤ obj pop j m)

/-- Front members sorted (stably) by objective `m`. -/
def sortedFront (pop : List Individual) (front : List Nat) (m : Nat) :
    List Nat :=
  front.mergeSort (objLe pop m)

/-- Modelled from the spec (§4.3 Crowding Distance): the contribution of
objective dimension `m` to the crowding distance of front member `i` — `⊤`
(the `+∞` sentinel) for the two boundary individuals, the normalized gap
`(next - prev) / (max - min)` for interior individuals, and `0` for everybody
when the dimension is degenerate (`max = min`). -/
def dimContrib (pop : List Individual) (front : List Nat) (m i : Nat) :
    WithTop ℚ :=
  if sortedFront pop front m = [] then 0
  else if obj pop ((sortedFront pop front m).getD
      ((sortedFront pop front m).length - 1) 0) m =
      obj pop ((sortedFront pop front m).getD 0 0) m then 0
  else if (sortedFront pop front m).indexOf i = 0 ∨
      (sortedFront pop front m).indexOf i =
        (sortedFront pop front m).length - 1 then ⊤
  else (((obj pop ((sortedFront pop front m).getD
      ((sortedFront pop front m).indexOf i + 1) 0) m -
    obj pop ((sortedFront pop front m).getD
      ((sortedFront pop front m).indexOf i - 1) 0) m) /
    (obj pop ((sortedFront pop front m).getD
      ((sortedFront pop front m).length - 1) 0) m -
     obj pop ((sortedFront pop front m).getD 0 0) m) : ℚ) : WithTop ℚ)

/-- Modelled from the spec (§4.3): total crowding distance of front member
`i` — the sum of the per-dimension contributions over all `nObj` objective
dimensions. -/
def crowdDist (pop : List Individual) (nObj : Nat) (front : List Nat)
    (i : Nat) : WithTop ℚ :=
  ((List.range nObj).map fun m => dimContrib pop front m i).sum

theorem sum_eq_top_of_mem {l : List (WithTop ℚ)} (h : (⊤ : WithTop ℚ) ∈ l) :
    l.sum = ⊤ := by
  induction l with
  | nil => cases h
  | cons a t ih =>
    rw [List.mem_cons] at h
    rw [List.sum_cons]
    rcases h with h | h
    · rw [← h, WithTop.top_add]
    · rw [ih h, WithTop.add_top]

theorem sortedFront_sorted (pop : List Individual) (front : List Nat)
    (m : Nat) :
    (sortedFront pop front m).Pairwise
      fun i j => obj pop i m ≤ obj pop j m := by
  have htr : ∀ (a b c : Nat), objLe pop m a b → objLe pop m b c →
      objLe pop m a c := by
    intro a b c hab hbc
    rw [objLe, decide_eq_true_eq] at hab hbc ⊢
    exact le_trans hab hbc
  have hto : ∀ (a b : Nat), objLe pop m a b || objLe pop m b a := by
    intro a b
    rw [objLe, objLe]
    rcases le_total (obj pop a m) (obj pop b m) with h | h <;> simp [h]
  have hthis := List.sorted_mergeSort htr hto front
  exact List.Pairwise.imp (fun h => by
    rw [objLe, decide_eq_true_eq] at h
    exact h) hthis

theorem sortedFront_perm (pop : List Individual) (front : List Nat)
    (m : Nat) : (sortedFront pop front m).Perm front :=
  List.mergeSort_perm front _

/-- Sorted order puts the dimension's minimum first and maximum last. -/
theorem sortedFront_bounds {pop : List Individual} {front : List Nat}
    {m : Nat} (hne : front ≠ []) :
    ∀ j ∈ front,
      obj pop ((sortedFront pop front m).getD 0 0) m ≤ obj pop j m ∧
      obj pop j m ≤ obj pop ((sortedFront pop front m).getD
        ((sortedFront pop front m).length - 1) 0) m := by
  intro j hj
  set s := sortedFront pop front m with hs
  have hsp : s.Perm front := sortedFront_perm pop front m
  have hjs : j ∈ s := hsp.mem_iff.2 hj
  have hsne : s ≠ [] := by
    intro hcon
    rw [hcon] at hsp
    exact hne hsp.symm.eq_nil
  have hlen : 0 < s.length := List.length_pos.2 hsne
  have hsort := sortedFront_sorted pop front m
  rw [← hs] at hsort
  rw [List.pairwise_iff_getElem] at hsort
  obtain ⟨p, hp, hpj⟩ := List.getElem_of_mem hjs
  constructor
  · rcases Nat.eq_zero_or_pos p with hp0 | hp0
    · subst hp0
      rw [List.getD_eq_getElem s 0 hlen, hpj]
    · have hle := hsort 0 p hlen hp hp0
      rw [hpj] at hle
      rw [List.getD_eq_getElem s 0 hlen]
      exact hle
  · have hlast : s.length - 1 < s.length := Nat.sub_lt hlen Nat.one_pos
    rcases Nat.lt_or_ge p (s.length - 1) with hplt | hpge
    · have hle := hsort p (s.length - 1) hp hlast hplt
      rw [hpj] at hle
      rw [List.getD_eq_getElem s 0 hlast]
      exact hle
    · have hpe : p = s.length - 1 :=
        le_antisymm (Nat.le_sub_one_of_lt hp) hpge
      have hgd : s.getD p 0 = j := by
        rw [List.getD_eq_getElem s 0 hp]
        exact hpj
      rw [hpe] at hgd
      rw [hgd]

theorem dimContrib_boundary {pop : List Individual} {front : List Nat}
    {m : Nat} (hnd : front.Nodup) {p : Nat}
    (hp : p < (sortedFront pop front m).length)
    (hp0 : p = 0 ∨ p = (sortedFront pop front m).length - 1)
    (hdeg : obj pop ((sortedFront pop front m).getD
        ((sortedFront pop front m).length - 1) 0) m ≠
      obj pop ((sortedFront pop front m).getD 0 0) m) :
    dimContrib pop front m ((sortedFront pop front m)[p]) = ⊤ := by
  have hsne : sortedFront pop front m ≠ [] :=
    List.ne_nil_of_length_pos (Nat.lt_of_le_of_lt (Nat.zero_le p) hp)
  have hsnd : (sortedFront pop front m).Nodup :=
    (sortedFront_perm pop front m).nodup_iff.2 hnd
  have hidx : (sortedFront pop front m).indexOf
      ((sortedFront pop front m)[p]) = p :=
    List.indexOf_getElem hsnd p hp
  have hcond : (sortedFront pop front m).indexOf
      ((sortedFront pop front m)[p]) = 0 ∨
      (sortedFront pop front m).indexOf ((sortedFront pop front m)[p]) =
        (sortedFront pop front m).length - 1 := by
    rw [hidx]
    exact hp0
  unfold dimContrib
  rw [if_neg hsne, if_neg hdeg, if_pos hcond]

theorem dimContrib_degenerate {pop : List Individual} {front : List Nat}
    {m : Nat} (hdeg : ∀ j₁ ∈ front, ∀ j₂ ∈ front,
      obj pop j₁ m = obj pop j₂ m) (i : Nat) :
    dimContrib pop front m i = 0 := by
  by_cases hsne : sortedFront pop front m = []
  · unfold dimContrib
    rw [if_pos hsne]
  · have hlen : 0 < (sortedFront pop front m).length :=
      List.length_pos.2 hsne
    have hlast : (sortedFront pop front m).length - 1 <
        (sortedFront pop front m).length := Nat.sub_lt hlen Nat.one_pos
    have hm0 : (sortedFront pop front m).getD 0 0 ∈ front :=
      (sortedFront_perm pop front m).mem_iff.1
        (List.getD_eq_getElem _ 0 hlen ▸ List.getElem_mem hlen)
    have hm1 : (sortedFront pop front m).getD
        ((sortedFront pop front m).length - 1) 0 ∈ front :=
      (sortedFront_perm pop front m).mem_iff.1
        (List.getD_eq_getElem _ 0 hlast ▸ List.getElem_mem hlast)
    unfold dimContrib
    rw [if_neg hsne, if_pos (hdeg _ hm1 _ hm0)]

theorem crowdDist_top {pop : List Individual} {nObj : Nat} {front : List Nat}
    {m i : Nat} (hm : m < nObj) (h : dimContrib pop front m i = ⊤) :
    crowdDist pop nObj front i = ⊤ := by
  unfold crowdDist
  exact sum_eq_top_of_mem (List.mem_map.2 ⟨m, List.mem_range.2 hm, h⟩)

theorem dimContrib_nonneg {pop : List Individual} {front : List Nat}
    {m i : Nat} (hi : i ∈ front) :
    0 ≤ dimContrib pop front m i := by
  by_cases hsne : sortedFront pop front m = []
  · unfold dimContrib
    rw [if_pos hsne]
  · by_cases hdeg : obj pop ((sortedFront pop front m).getD
        ((sortedFront pop front m).length - 1) 0) m =
        obj pop ((sortedFront pop front m).getD 0 0) m
    · unfold dimContrib
      rw [if_neg hsne, if_pos hdeg]
    · by_cases hb : (sortedFront pop front m).indexOf i = 0 ∨
          (sortedFront pop front m).indexOf i =
            (sortedFront pop front m).length - 1
      · unfold dimContrib
        rw [if_neg hsne, if_neg hdeg, if_pos hb]
        exact le_top
      · unfold dimContrib
        rw [if_neg hsne, if_neg hdeg, if_neg hb]
        push_neg at hb
        obtain ⟨hk0, hkl⟩ := hb
        set s := sortedFront pop front m with hs
        have his : i ∈ s := (sortedFront_perm pop front m).mem_iff.2 hi
        have hklen : s.indexOf i < s.length := List.indexOf_lt_length.2 his
        have hk1 : 1 ≤ s.indexOf i := Nat.one_le_iff_ne_zero.2 hk0
        have hkl1 : s.indexOf i + 1 ≤ s.length - 1 := by
          have : s.indexOf i ≤ s.length - 1 := Nat.le_sub_one_of_lt hklen
          omega
        have hlen2 : 2 ≤ s.length := by omega
        have hsort := sortedFront_sorted pop front m
        rw [← hs, List.pairwise_iff_getElem] at hsort
        have hprev : s.indexOf i - 1 < s.length := by omega
        have hnext : s.indexOf i + 1 < s.length := by omega
        have h0 : 0 < s.length := by omega
        have hlst : s.length - 1 < s.length := by omega
        have hnum : obj pop (s.getD (s.indexOf i - 1) 0) m ≤
            obj pop (s.getD (s.indexOf i + 1) 0) m := by
          rw [List.getD_eq_getElem s 0 hprev, List.getD_eq_getElem s 0 hnext]
          exact hsort _ _ hprev hnext (by omega)
        have hle : obj pop (s.getD 0 0) m ≤
            obj pop (s.getD (s.length - 1) 0) m := by
          rw [List.getD_eq_getElem s 0 h0, List.getD_eq_getElem s 0 hlst]
          exact hsort 0 (s.length - 1) h0 hlst (by omega)
        have hden : obj pop (s.getD 0 0) m <
            obj pop (s.getD (s.length - 1) 0) m := by
          rcases lt_or_eq_of_le hle with h | h
          · exact h
          · exact absurd h.symm hdeg
        rw [← WithTop.coe_zero, WithTop.coe_le_coe]
        exact div_nonneg (sub_nonneg.2 hnum) (le_of_lt (sub_pos.2 hden))

theorem crowdDist_nonneg {pop : List Individual} {nObj : Nat}
    {front : List Nat} {i : Nat} (hi : i ∈ front) :
    0 ≤ crowdDist pop nObj front i := by
  unfold crowdDist
  apply List.sum_nonneg
  intro x hx
  obtain ⟨m, _, hmx⟩ := List.mem_map.1 hx
  exact hmx ▸ dimContrib_nonneg hi

/-- C5: within a front, for every non-degenerate objective dimension the two
boundary individuals (the one attaining the dimension's minimum and the one
attaining its maximum) receive crowding distance `+∞`; a degenerate dimension
(`max = min` within the front) contributes `0` to every individual's distance
instead of raising an error; and all distances of front members are
nonnegative. -/
theorem C5_crowding_distance (pop : List Individual) (nObj : Nat)
    (front : List Nat) (hnd : front.Nodup) :
    (∀ m, m < nObj → front ≠ [] →
      obj pop ((sortedFront pop front m).getD
          ((sortedFront pop front m).length - 1) 0) m ≠
        obj pop ((sortedFront pop front m).getD 0 0) m →
      (∀ j ∈ front,
        obj pop ((sortedFront pop front m).getD 0 0) m ≤ obj pop j m ∧
        obj pop j m ≤ obj pop ((sortedFront pop front m).getD
          ((sortedFront pop front m).length - 1) 0) m) ∧
      crowdDist pop nObj front ((sortedFront pop front m).getD 0 0) = ⊤ ∧
      crowdDist pop nObj front ((sortedFront pop front m).getD
        ((sortedFront pop front m).length - 1) 0) = ⊤) ∧
    (∀ m, (∀ j₁ ∈ front, ∀ j₂ ∈ front, obj pop j₁ m = obj pop j₂ m) →
      ∀ i, dimContrib pop front m i = 0) ∧
    (∀ i ∈ front, 0 ≤ crowdDist pop nObj front i) := by
  refine ⟨?_, fun m hdeg i => dimContrib_degenerate hdeg i,
    fun i hi => crowdDist_nonneg hi⟩
  intro m hm hne hdeg
  have hsne : sortedFront pop front m ≠ [] := by
    intro hcon
    have hsp := sortedFront_perm pop front m
    rw [hcon] at hsp
    exact hne hsp.symm.eq_nil
  have hlen : 0 < (sortedFront pop front m).length := List.length_pos.2 hsne
  have hlast : (sortedFront pop front m).length - 1 <
      (sortedFront pop front m).length := Nat.sub_lt hlen Nat.one_pos
  refine ⟨sortedFront_bounds hne, ?_, ?_⟩
  · have := dimContrib_boundary hnd hlen (Or.inl rfl) hdeg
    rw [← List.getD_eq_getElem _ 0 hlen] at this
    exact crowdDist_top hm this
  · have := dimContrib_boundary hnd hlast (Or.inr rfl) hdeg
    rw [← List.getD_eq_getElem _ 0 hlast] at this
    exact crowdDist_top hm this

/-- Witness for C5 on a concrete population and front. -/
theorem C5_crowding_distance_witness :
    ([0, 1, 2] : List Nat).Nodup ∧
    (∀ i ∈ ([0, 1, 2] : List Nat),
      0 ≤ crowdDist [{ F := [0, 4], cv := 0 }, { F := [1, 2], cv := 0 },
        { F := [2, 0], cv := 0 }] 2 [0, 1, 2] i) := by
  refine ⟨by decide, ?_⟩
  exact (C5_crowding_distance [{ F := [0, 4], cv := 0 },
    { F := [1, 2], cv := 0 }, { F := [2, 0], cv := 0 }] 2 [0, 1, 2]
    (by decide)).2.2

/-! ### Survival selection -/

/-- Number of objectives of a population (fixed per problem). -/
def nObjOf (pop : List Individual) : Nat :=
  (ind pop 0).F.length

/-- Descending crowding-distance relation used to truncate the boundary
front (stable sort, so ties keep their original order). -/
def cdRel (pop : List Individual) (front : List Nat) (i j : Nat) : Bool :=
  decide (crowdDist pop (nObjOf pop) front j ≤
    crowdDist pop (nObjOf pop) front i)

/-- Modelled from the spec (§4.4 Survival Selector): walk the fronts in rank
order, keeping whole fronts while they fit; the boundary front that would
overflow is sorted by descending crowding distance and truncated to exactly
fill the quota. -/
def survivalGo (pop : List Individual) : List (List Nat) → Nat → List Nat
  | [], _ => []
  | f :: fs, k =>
    if f.length ≤ k then f ++ survivalGo pop fs (k - f.length)
    else (f.mergeSort (cdRel pop f)).take k

/-- Modelled from the spec (§4.4): survival selection of `k` individuals from
the merged pool. -/
def survival (pop : List Individual) (k : Nat) : List Nat :=
  survivalGo pop (fastNonDominatedSort pop) k

theorem survivalGo_length (pop : List Individual) :
    ∀ (fs : List (List Nat)) (k : Nat), k ≤ fs.flatten.length →
    (survivalGo pop fs k).length = k := by
  intro fs
  induction fs with
  | nil =>
    intro k hk
    rw [List.flatten_nil, List.length_nil, Nat.le_zero] at hk
    rw [hk]
    rfl
  | cons f fs ih =>
    intro k hk
    rw [List.flatten_cons, List.length_append] at hk
    rw [survivalGo]
    by_cases hf : f.length ≤ k
    · rw [if_pos hf, List.length_append, ih (k - f.length) (by omega)]
      omega
    · rw [if_neg hf, List.length_take, List.length_mergeSort]
      omega

theorem front_of_getD_mem {fs : List (List Nat)} {kk : Nat} {i : Nat}
    (hi : i ∈ fs.getD kk []) : fs.getD kk [] ∈ fs := by
  by_cases h : kk < fs.length
  · rw [List.getD_eq_getElem fs [] h]
    exact List.getElem_mem h
  · rw [List.getD_eq_default fs [] (Nat.le_of_not_lt h)] at hi
    cases hi

theorem survivalGo_elitism (pop : List Individual) :
    ∀ (fs : List (List Nat)) (k : Nat), List.Pairwise List.Disjoint fs →
    ∀ (ka kb : Nat) (i j : Nat), i ∈ fs.getD ka [] →
    i ∈ survivalGo pop fs k → j ∈ fs.getD kb [] →
    j ∉ survivalGo pop fs k → ka ≤ kb := by
  intro fs
  induction fs with
  | nil =>
    intro k _ ka kb i j hi
    rw [List.getD_nil] at hi
    cases hi
  | cons f fs ih =>
    intro k hdisj ka kb i j hika hiS hjkb hjS
    rw [List.pairwise_cons] at hdisj
    rw [survivalGo] at hiS hjS
    by_cases hf : f.length ≤ k
    · rw [if_pos hf] at hiS hjS
      cases ka with
      | zero => exact Nat.zero_le kb
      | succ ka =>
        rw [List.getD_cons_succ] at hika
        have hiS' : i ∈ survivalGo pop fs (k - f.length) := by
          rcases List.mem_append.1 hiS with h | h
          · exact absurd hika (hdisj.1 _ (front_of_getD_mem hika) h)
          · exact h
        cases kb with
        | zero =>
          rw [List.getD_cons_zero] at hjkb
          exact absurd (List.mem_append.2 (Or.inl hjkb)) hjS
        | succ kb =>
          rw [List.getD_cons_succ] at hjkb
          have hjS' : j ∉ survivalGo pop fs (k - f.length) := fun hcon =>
            hjS (List.mem_append.2 (Or.inr hcon))
          exact Nat.succ_le_succ
            (ih (k - f.length) hdisj.2 ka kb i j hika hiS' hjkb hjS')
    · rw [if_neg hf] at hiS hjS
      cases ka with
      | zero => exact Nat.zero_le kb
      | succ ka =>
        rw [List.getD_cons_succ] at hika
        have hif : i ∈ f :=
          List.mem_mergeSort.1 (List.mem_of_mem_take hiS)
        exact absurd hika (hdisj.1 _ (front_of_getD_mem hika) hif)

theorem cdRel_trans (pop : List Individual) (front : List Nat) :
    ∀ (a b c : Nat), cdRel pop front a b → cdRel pop front b c →
    cdRel pop front a c := by
  intro a b c hab hbc
  rw [cdRel, decide_eq_true_eq] at hab hbc ⊢
  exact le_trans hbc hab

theorem cdRel_total (pop : List Individual) (front : List Nat) :
    ∀ (a b : Nat), cdRel pop front a b || cdRel pop front b a := by
  intro a b
  rw [cdRel, cdRel]
  rcases le_total (crowdDist pop (nObjOf pop) front b)
    (crowdDist pop (nObjOf pop) front a) with h | h <;> simp [h]

theorem survivalGo_boundary (pop : List Individual) :
    ∀ (fs : List (List Nat)) (k : Nat), List.Pairwise List.Disjoint fs →
    ∀ (kk : Nat) (i j : Nat), i ∈ fs.getD kk [] → j ∈ fs.getD kk [] →
    i ∈ survivalGo pop fs k → j ∉ survivalGo pop fs k →
    crowdDist pop (nObjOf pop) (fs.getD kk []) j ≤
      crowdDist pop (nObjOf pop) (fs.getD kk []) i := by
  intro fs
  induction fs with
  | nil =>
    intro k _ kk i j hi
    rw [List.getD_nil] at hi
    cases hi
  | cons f fs ih =>
    intro k hdisj kk i j hikk hjkk hiS hjS
    rw [List.pairwise_cons] at hdisj
    rw [survivalGo] at hiS hjS
    by_cases hf : f.length ≤ k
    · rw [if_pos hf] at hiS hjS
      cases kk with
      | zero =>
        rw [List.getD_cons_zero] at hjkk
        exact absurd (List.mem_append.2 (Or.inl hjkk)) hjS
      | succ kk =>
        rw [List.getD_cons_succ] at hikk hjkk ⊢
        have hiS' : i ∈ survivalGo pop fs (k - f.length) := by
          rcases List.mem_append.1 hiS with h | h
          · exact absurd hikk (hdisj.1 _ (front_of_getD_mem hikk) h)
          · exact h
        have hjS' : j ∉ survivalGo pop fs (k - f.length) := fun hcon =>
          hjS (List.mem_append.2 (Or.inr hcon))
        exact ih (k - f.length) hdisj.2 kk i j hikk hjkk hiS' hjS'
    · rw [if_neg hf] at hiS hjS
      cases kk with
      | zero =>
        rw [List.getD_cons_zero] at hikk hjkk ⊢
        have hsorted : (f.mergeSort (cdRel pop f)).Pairwise
            (cdRel pop f · ·) :=
          List.sorted_mergeSort (cdRel_trans pop f) (cdRel_total pop f) f
        have hjms : j ∈ f.mergeSort (cdRel pop f) :=
          List.mem_mergeSort.2 hjkk
        have hjdrop : j ∈ (f.mergeSort (cdRel pop f)).drop k := by
          rcases List.mem_append.1
            ((List.take_append_drop k (f.mergeSort (cdRel pop f))) ▸
              hjms) with h | h
          · exact absurd h hjS
          · exact h
        have hpa := (List.take_append_drop k
          (f.mergeSort (cdRel pop f))) ▸ hsorted
        rw [List.pairwise_append] at hpa
        have := hpa.2.2 i hiS j hjdrop
        rw [cdRel, decide_eq_true_eq] at this
        exact this
      | succ kk =>
        rw [List.getD_cons_succ] at hikk
        have hif : i ∈ f :=
          List.mem_mergeSort.1 (List.mem_of_mem_take hiS)
        exact absurd hikk (hdisj.1 _ (front_of_getD_mem hikk) hif)

/-- C4: from a merged pool of at least `k` individuals, survival selection
returns exactly `k` positions; it never keeps a member of a worse front while
excluding a member of a better front; and within a single front a kept member
never has a smaller crowding distance than an excluded one (the boundary front
is truncated by descending crowding distance). -/
theorem C4_survival (pop : List Individual) (m k : Nat)
    (hw : WellFormed pop m) (hk : k ≤ pop.length) :
    (survival pop k).length = k ∧
    (∀ ka kb i j, i ∈ (fastNonDominatedSort pop).getD ka [] →
      i ∈ survival pop k → j ∈ (fastNonDominatedSort pop).getD kb [] →
      j ∉ survival pop k → ka ≤ kb) ∧
    (∀ kk i j, i ∈ (fastNonDominatedSort pop).getD kk [] →
      j ∈ (fastNonDominatedSort pop).getD kk [] → i ∈ survival pop k →
      j ∉ survival pop k →
      crowdDist pop (nObjOf pop) ((fastNonDominatedSort pop).getD kk []) j ≤
        crowdDist pop (nObjOf pop)
          ((fastNonDominatedSort pop).getD kk []) i) := by
  have hperm := nds_flatten_perm hw
  have hnd : (fastNonDominatedSort pop).flatten.Nodup :=
    hperm.nodup_iff.2 (List.nodup_range _)
  have hdisj : List.Pairwise List.Disjoint (fastNonDominatedSort pop) :=
    (List.nodup_flatten.1 hnd).2
  refine ⟨?_, ?_, ?_⟩
  · exact survivalGo_length pop (fastNonDominatedSort pop) k
      (by rw [hperm.length_eq, List.length_range]; exact hk)
  · exact survivalGo_elitism pop (fastNonDominatedSort pop) k hdisj
  · exact survivalGo_boundary pop (fastNonDominatedSort pop) k hdisj

/-- Witness for C4 on a concrete four-individual pool truncated to two. -/
theorem C4_survival_witness :
    WellFormed [{ F := [0, 3], cv := 0 }, { F := [3, 0], cv := 0 },
      { F := [1, 1], cv := 0 }, { F := [4, 4], cv := 0 }] 2 ∧
    2 ≤ 4 ∧
    (survival [{ F := [0, 3], cv := 0 }, { F := [3, 0], cv := 0 },
      { F := [1, 1], cv := 0 }, { F := [4, 4], cv := 0 }] 2).length = 2 := by
  have hw : WellFormed [{ F := [0, 3], cv := 0 }, { F := [3, 0], cv := 0 },
      { F := [1, 1], cv := 0 }, { F := [4, 4], cv := 0 }] 2 := by
    intro a ha
    fin_cases ha <;> exact ⟨rfl, le_refl 0⟩
  exact ⟨hw, by omega,
    (C4_survival _ 2 2 hw (by norm_num)).1⟩

/-! ### Rank / crowding assignment and idempotence -/

/-- Rank of a position: the index of the front containing it. -/
def rankOf (fs : List (List Nat)) (i : Nat) : Nat :=
  fs.findIdx fun f => f.contains i

/-- Modelled from the spec (§4.8 step 1 / §8): run non-dominated sorting plus
crowding distance on a population and attach the resulting `rank` and
crowding distance to every individual (objectives, constraint violations and
decision vectors are untouched). -/
def assignRankCrowd (pop : List Individual) : List Individual :=
  (List.range pop.length).map fun i =>
    { ind pop i with
      rank := rankOf (fastNonDominatedSort pop) i
      cd := crowdDist pop (nObjOf pop)
        ((fastNonDominatedSort pop).getD
          (rankOf (fastNonDominatedSort pop) i) []) i }

theorem assignRankCrowd_length (pop : List Individual) :
    (assignRankCrowd pop).length = pop.length := by
  unfold assignRankCrowd
  rw [List.length_map, List.length_range]

theorem ind_assignRankCrowd (pop : List Individual) (i : Nat)
    (h : i < pop.length) :
    ind (assignRankCrowd pop) i =
      { ind pop i with
        rank := rankOf (fastNonDominatedSort pop) i
        cd := crowdDist pop (nObjOf pop)
          ((fastNonDominatedSort pop).getD
            (rankOf (fastNonDominatedSort pop) i) []) i } := by
  unfold ind assignRankCrowd
  have h' : i < ((List.range pop.length).map fun i =>
      ({ ind pop i with
        rank := rankOf (fastNonDominatedSort pop) i
        cd := crowdDist pop (nObjOf pop)
          ((fastNonDominatedSort pop).getD
            (rankOf (fastNonDominatedSort pop) i) []) i } :
        Individual)).length := by
    rw [List.length_map, List.length_range]
    exact h
  rw [List.getD_eq_getElem _ default h', List.getElem_map,
    List.getElem_range]
  rfl

theorem ind_assignRankCrowd_F (pop : List Individual) (i : Nat) :
    (ind (assignRankCrowd pop) i).F = (ind pop i).F := by
  by_cases h : i < pop.length
  · rw [ind_assignRankCrowd pop i h]
  · unfold ind
    rw [List.getD_eq_default _ default (by
        rw [assignRankCrowd_length]
        omega),
      List.getD_eq_default _ default (by omega)]

theorem ind_assignRankCrowd_cv (pop : List Individual) (i : Nat) :
    (ind (assignRankCrowd pop) i).cv = (ind pop i).cv := by
  by_cases h : i < pop.length
  · rw [ind_assignRankCrowd pop i h]
  · unfold ind
    rw [List.getD_eq_default _ default (by
        rw [assignRankCrowd_length]
        omega),
      List.getD_eq_default _ default (by omega)]

theorem obj_assignRankCrowd (pop : List Individual) :
    obj (assignRankCrowd pop) = obj pop := by
  funext i m
  unfold obj
  rw [ind_assignRankCrowd_F]

theorem domI_assignRankCrowd (pop : List Individual) :
    domI (assignRankCrowd pop) = domI pop := by
  funext i j
  unfold domI dominates
  rw [ind_assignRankCrowd_F, ind_assignRankCrowd_F,
    ind_assignRankCrowd_cv, ind_assignRankCrowd_cv]

theorem ndFront_assignRankCrowd (pop : List Individual) :
    ndFront (assignRankCrowd pop) = ndFront pop := by
  funext rem
  unfold ndFront
  rw [domI_assignRankCrowd]

theorem ndsGo_assignRankCrowd (pop : List Individual) :
    ∀ (fuel : Nat) (rem : List Nat),
    ndsGo (assignRankCrowd pop) fuel rem = ndsGo pop fuel rem := by
  intro fuel
  induction fuel with
  | zero => intro rem; rw [ndsGo, ndsGo]
  | succ fuel ih =>
    intro rem
    rw [ndsGo, ndsGo, ndFront_assignRankCrowd, ih]

theorem nds_assignRankCrowd (pop : List Individual) :
    fastNonDominatedSort (assignRankCrowd pop) = fastNonDominatedSort pop := by
  unfold fastNonDominatedSort
  rw [assignRankCrowd_length, ndsGo_assignRankCrowd]

theorem objLe_assignRankCrowd (pop : List Individual) :
    objLe (assignRankCrowd pop) = objLe pop := by
  funext m i j
  unfold objLe
  rw [obj_assignRankCrowd]

theorem sortedFront_assignRankCrowd (pop : List Individual) :
    sortedFront (assignRankCrowd pop) = sortedFront pop := by
  funext front m
  unfold sortedFront
  rw [objLe_assignRankCrowd]

theorem dimContrib_assignRankCrowd (pop : List Individual) :
    dimContrib (assignRankCrowd pop) = dimContrib pop := by
  funext front m i
  unfold dimContrib
  rw [sortedFront_assignRankCrowd, obj_assignRankCrowd]

theorem crowdDist_assignRankCrowd (pop : List Individual) :
    crowdDist (assignRankCrowd pop) = crowdDist pop := by
  funext nObj front i
  unfold crowdDist
  rw [dimContrib_assignRankCrowd]

theorem nObjOf_assignRankCrowd (pop : List Individual) :
    nObjOf (assignRankCrowd pop) = nObjOf pop := by
  unfold nObjOf
  rw [ind_assignRankCrowd_F]

/-- C9: assigning ranks and crowding distances is idempotent — re-running
non-dominated sorting plus crowding distance on an already-processed,
unchanged population reproduces exactly the same ranks and distances. -/
theorem C9_assign_idempotent (pop : List Individual) :
    assignRankCrowd (assignRankCrowd pop) = assignRankCrowd pop := by
  apply List.ext_getElem
  · rw [assignRankCrowd_length, assignRankCrowd_length]
  · intro i h1 h2
    have hlen1 : (assignRankCrowd (assignRankCrowd pop)).length =
        pop.length := by
      rw [assignRankCrowd_length, assignRankCrowd_length]
    have hip : i < pop.length := hlen1 ▸ h1
    have hia : i < (assignRankCrowd pop).length := by
      rw [assignRankCrowd_length]
      exact hip
    have e1 : (assignRankCrowd (assignRankCrowd pop))[i] =
        ind (assignRankCrowd (assignRankCrowd pop)) i := by
      unfold ind
      rw [List.getD_eq_getElem _ default h1]
    have e2 : (assignRankCrowd pop)[i] = ind (assignRankCrowd pop) i := by
      unfold ind
      rw [List.getD_eq_getElem _ default h2]
    rw [e1, e2, ind_assignRankCrowd (assignRankCrowd pop) i hia,
      ind_assignRankCrowd pop i hip, nds_assignRankCrowd,
      crowdDist_assignRankCrowd, nObjOf_assignRankCrowd]

/-! ### Variation operators: SBX crossover and polynomial mutation -/

/-- Clip a value into the box `[xl, xu]`. -/
def clip (xl xu v : ℚ) : ℚ := max xl (min v xu)

/-- Modelled from the spec (§4.6 SBX): per-gene simulated binary crossover.
The spread factor `beta` (derived in the real code from `eta` and a random
draw, a formula the spec leaves open) enters as an explicit parameter; the two
children interpolate/extrapolate between the parent genes and are clipped to
`[xl, xu]`.  When the gene is not crossed (probability `1 - p_c` in the real
code, here the flag `app`), the parents' values pass through unchanged. -/
def sbxGene (xl xu p1 p2 beta : ℚ) (app : Bool) : ℚ × ℚ :=
  if app then
    (clip xl xu ((1 + beta) / 2 * p1 + (1 - beta) / 2 * p2),
     clip xl xu ((1 - beta) / 2 * p1 + (1 + beta) / 2 * p2))
  else (p1, p2)

/-- Modelled from the spec (§4.6 PM): per-gene polynomial mutation.  The
perturbation `delta` (drawn from the polynomial distribution in the real code)
enters as an explicit parameter; the perturbed value is clipped to
`[xl, xu]`. -/
def pmGene (xl xu x delta : ℚ) (app : Bool) : ℚ :=
  if app then clip xl xu (x + delta * (xu - xl)) else x

/-- SBX applied componentwise: each entry of `rs` supplies the per-gene
application flag and spread factor. -/
def sbxVec : List ℚ → List ℚ → List ℚ → List ℚ → List (Bool × ℚ) →
    List (ℚ × ℚ)
  | xlh :: xlt, xuh :: xut, a :: ta, b :: tb, r :: rs =>
      sbxGene xlh xuh a b r.2 r.1 :: sbxVec xlt xut ta tb rs
  | _, _, _, _, _ => []

/-- PM applied componentwise. -/
def pmVec : List ℚ → List ℚ → List ℚ → List (Bool × ℚ) → List ℚ
  | xlh :: xlt, xuh :: xut, x :: tx, r :: rs =>
      pmGene xlh xuh x r.2 r.1 :: pmVec xlt xut tx rs
  | _, _, _, _ => []

/-- Componentwise box membership `xl ≤ v ≤ xu`. -/
def inBox : List ℚ → List ℚ → List ℚ → Bool
  | _, _, [] => true
  | xlh :: xlt, xuh :: xut, v :: vs =>
      decide (xlh ≤ v) && decide (v ≤ xuh) && inBox xlt xut vs
  | _, _, _ :: _ => false

/-- Componentwise box validity `xl ≤ xu`. -/
def wellBox : List ℚ → List ℚ → Bool
  | [], [] => true
  | xlh :: xlt, xuh :: xut => decide (xlh ≤ xuh) && wellBox xlt xut
  | _, _ => false

theorem clip_mem {xl xu : ℚ} (h : xl ≤ xu) (v : ℚ) :
    xl ≤ clip xl xu v ∧ clip xl xu v ≤ xu :=
  ⟨le_max_left xl _, max_le h (min_le_right v xu)⟩

theorem sbxGene_mem {xl xu p1 p2 : ℚ} (h : xl ≤ xu) (hp1 : xl ≤ p1 ∧ p1 ≤ xu)
    (hp2 : xl ≤ p2 ∧ p2 ≤ xu) (beta : ℚ) (app : Bool) :
    (xl ≤ (sbxGene xl xu p1 p2 beta app).1 ∧
      (sbxGene xl xu p1 p2 beta app).1 ≤ xu) ∧
    (xl ≤ (sbxGene xl xu p1 p2 beta app).2 ∧
      (sbxGene xl xu p1 p2 beta app).2 ≤ xu) := by
  unfold sbxGene
  cases app with
  | false => exact ⟨hp1, hp2⟩
  | true => exact ⟨clip_mem h _, clip_mem h _⟩

theorem pmGene_mem {xl xu x : ℚ} (h : xl ≤ xu) (hx : xl ≤ x ∧ x ≤ xu)
    (delta : ℚ) (app : Bool) :
    xl ≤ pmGene xl xu x delta app ∧ pmGene xl xu x delta app ≤ xu := by
  unfold pmGene
  cases app with
  | false => exact hx
  | true => exact clip_mem h _

theorem inBox_nil (xl xu : List ℚ) : inBox xl xu [] = true := by
  cases xl <;> cases xu <;> rfl

theorem sbxVec_inBox : ∀ (xl xu p q : List ℚ) (rs : List (Bool × ℚ)),
    wellBox xl xu = true → inBox xl xu p = true → inBox xl xu q = true →
    inBox xl xu ((sbxVec xl xu p q rs).map Prod.fst) = true ∧
    inBox xl xu ((sbxVec xl xu p q rs).map Prod.snd) = true := by
  intro xl
  induction xl with
  | nil =>
    intro xu p q rs _ _ _
    rw [sbxVec.eq_def]
    cases xu <;> simp [inBox_nil]
  | cons xlh xlt ih =>
    intro xu p q rs hw hp hq
    cases xu with
    | nil => cases hw
    | cons xuh xut =>
      rw [wellBox, Bool.and_eq_true, decide_eq_true_eq] at hw
      cases p with
      | nil => rw [sbxVec.eq_def]; exact ⟨inBox_nil _ _, inBox_nil _ _⟩
      | cons a ta =>
        cases q with
        | nil => rw [sbxVec.eq_def]; exact ⟨inBox_nil _ _, inBox_nil _ _⟩
        | cons b tb =>
          cases rs with
          | nil => rw [sbxVec.eq_def]; exact ⟨inBox_nil _ _, inBox_nil _ _⟩
          | cons r rs =>
            rw [inBox, Bool.and_eq_true, Bool.and_eq_true,
              decide_eq_true_eq, decide_eq_true_eq] at hp hq
            have hg := sbxGene_mem hw.1 ⟨hp.1.1, hp.1.2⟩ ⟨hq.1.1, hq.1.2⟩
              r.2 r.1
            have hrec := ih xut ta tb rs hw.2 hp.2 hq.2
            rw [sbxVec, List.map_cons, List.map_cons, inBox, inBox,
              Bool.and_eq_true, Bool.and_eq_true, Bool.and_eq_true,
              Bool.and_eq_true, decide_eq_true_eq, decide_eq_true_eq,
              decide_eq_true_eq, decide_eq_true_eq]
            exact ⟨⟨⟨hg.1.1, hg.1.2⟩, hrec.1⟩, ⟨⟨hg.2.1, hg.2.2⟩, hrec.2⟩⟩

theorem pmVec_inBox : ∀ (xl xu v : List ℚ) (rs : List (Bool × ℚ)),
    wellBox xl xu = true → inBox xl xu v = true →
    inBox xl xu (pmVec xl xu v rs) = true := by
  intro xl
  induction xl with
  | nil =>
    intro xu v rs _ _
    rw [pmVec.eq_def]
    cases xu <;> simp [inBox_nil]
  | cons xlh xlt ih =>
    intro xu v rs hw hv
    cases xu with
    | nil => cases hw
    | cons xuh xut =>
      rw [wellBox, Bool.and_eq_true, decide_eq_true_eq] at hw
      cases v with
      | nil => rw [pmVec.eq_def]; exact inBox_nil _ _
      | cons x tx =>
        cases rs with
        | nil => rw [pmVec.eq_def]; exact inBox_nil _ _
        | cons r rs =>
          rw [inBox, Bool.and_eq_true, Bool.and_eq_true,
            decide_eq_true_eq, decide_eq_true_eq] at hv
          have hg := pmGene_mem hw.1 ⟨hv.1.1, hv.1.2⟩ r.2 r.1
          rw [pmVec, inBox, Bool.and_eq_true, Bool.and_eq_true,
            decide_eq_true_eq, decide_eq_true_eq]
          exact ⟨⟨hg.1, hg.2⟩, ih xut tx rs hw.2 hv.2⟩

/-- C6: for parents inside the box `[xl, xu]`, every component of every
offspring produced by SBX crossover followed by PM mutation stays inside
`[xl, xu]`, whatever the random draws were. -/
theorem C6_variation_bounds (xl xu p q : List ℚ) (rs ms ms' : List (Bool × ℚ))
    (hbox : wellBox xl xu = true) (hp : inBox xl xu p = true)
    (hq : inBox xl xu q = true) :
    inBox xl xu
      (pmVec xl xu ((sbxVec xl xu p q rs).map Prod.fst) ms) = true ∧
    inBox xl xu
      (pmVec xl xu ((sbxVec xl xu p q rs).map Prod.snd) ms') = true := by
  have hsbx := sbxVec_inBox xl xu p q rs hbox hp hq
  exact ⟨pmVec_inBox xl xu _ ms hbox hsbx.1,
    pmVec_inBox xl xu _ ms' hbox hsbx.2⟩

/-- Witness for C6 at a concrete parent pair, spread factors and deltas. -/
theorem C6_variation_bounds_witness :
    wellBox [-2, -2] [2, 2] = true ∧
    inBox [-2, -2] [2, 2] [1, 1] = true ∧
    inBox [-2, -2] [2, 2] [0, -1] = true ∧
    inBox [-2, -2] [2, 2]
      (pmVec [-2, -2] [2, 2]
        ((sbxVec [-2, -2] [2, 2] [1, 1] [0, -1]
          [(true, 7), (false, 0)]).map Prod.fst)
        [(true, 9), (true, -9)]) = true := by
  refine ⟨by decide, by decide, by decide, ?_⟩
  exact (C6_variation_bounds [-2, -2] [2, 2] [1, 1] [0, -1]
    [(true, 7), (false, 0)] [(true, 9), (true, -9)] []
    (by decide) (by decide) (by decide)).1

/-! ### Orchestrator: generational loop and `minimize` -/

/-- Modelled from the spec (§6 Problem interface): dimensions, box bounds and
the batch-evaluation callback (given here element-wise, deterministically, as
pure functions). -/
structure Problem where
  n_var : Nat
  n_obj : Nat
  xl : List ℚ
  xu : List ℚ
  evalF : List ℚ → List ℚ
  evalG : List ℚ → List ℚ

/-- Modelled from the spec (§3): `cv` is the sum of positive constraint
violations (constraints are satisfied iff `≤ 0`). -/
def cvOf (g : List ℚ) : ℚ :=
  (g.map fun v => max v 0).sum

/-- Evaluate one decision vector into an `Individual`. -/
def evalInd (pr : Problem) (x : List ℚ) : Individual :=
  { X := x, F := pr.evalF x, cv := cvOf (pr.evalG x) }

/-- A linear-congruential pseudo-random generator: the single seeded stream
all stochastic operators draw from. -/
def lcg (s : Nat) : Nat :=
  (1103515245 * s + 12345) % 2147483648

/-- A rational in `[0, 1)` derived from the generator state. -/
def randFrac (s : Nat) : ℚ :=
  ((s % 65536 : Nat) : ℚ) / 65536

/-- Algorithm configuration (`pop_size`, `n_offsprings`). -/
structure AlgCfg where
  pop_size : Nat
  n_offsprings : Nat
deriving DecidableEq

/-- Mutable algorithm state: current population, generation counter,
cumulative evaluation count and generator state. -/
structure AlgState where
  pop : List Individual
  gen : Nat
  evals : Nat
  rng : Nat
deriving DecidableEq

/-- Modelled from the spec (§6 Termination interface): a maximum
generation-count criterion (`get_termination("n_gen", n)`). -/
structure Termination where
  max_gen : Nat
deriving DecidableEq

def shouldStop (t : Termination) (st : AlgState) : Bool :=
  decide (t.max_gen ≤ st.gen)

/-- Sample one decision vector inside the box, threading the generator. -/
def sampleVec : List ℚ → List ℚ → Nat → List ℚ × Nat
  | xlh :: xlt, xuh :: xut, s =>
      ((xlh + randFrac (lcg s) * (xuh - xlh)) ::
        (sampleVec xlt xut (lcg s)).1,
       (sampleVec xlt xut (lcg s)).2)
  | _, _, s => ([], s)

/-- Modelled from the spec (§6 Sampling interface): `n` initial decision
vectors respecting the bounds. -/
def samplePop (pr : Problem) : Nat → Nat → List (List ℚ) × Nat
  | 0, s => ([], s)
  | n + 1, s =>
      ((sampleVec pr.xl pr.xu s).1 ::
        (samplePop pr n (sampleVec pr.xl pr.xu s).2).1,
       (samplePop pr n (sampleVec pr.xl pr.xu s).2).2)

/-- Modelled from the spec (§4.5): binary tournament — better rank wins, ties
broken by larger crowding distance, remaining ties keep the first pick. -/
def tournament (pop : List Individual) (i j : Nat) : Nat :=
  if (ind pop i).rank < (ind pop j).rank then i
  else if (ind pop j).rank < (ind pop i).rank then j
  else if (ind pop j).cd < (ind pop i).cd then i
  else if (ind pop i).cd < (ind pop j).cd then j
  else i

/-- Draw a list of per-gene (application flag, random value) pairs. -/
def drawPairs : Nat → Nat → List (Bool × ℚ) × Nat
  | 0, s => ([], s)
  | n + 1, s =>
      ((decide (randFrac (lcg s) < 9 / 10), randFrac (lcg (lcg s))) ::
        (drawPairs n (lcg (lcg s))).1,
       (drawPairs n (lcg (lcg s))).2)

/-- Produce one offspring: two tournaments pick the parents, SBX crossover
and PM mutation produce the child. -/
def makeOne (pr : Problem) (pop : List Individual) (s : Nat) :
    List ℚ × Nat :=
  let s1 := lcg s
  let s2 := lcg s1
  let s3 := lcg s2
  let s4 := lcg s3
  let p1 := tournament pop (s1 % pop.length) (s2 % pop.length)
  let p2 := tournament pop (s3 % pop.length) (s4 % pop.length)
  let rdraw := drawPairs pr.n_var s4
  let mdraw := drawPairs pr.n_var rdraw.2
  (pmVec pr.xl pr.xu
    ((sbxVec pr.xl pr.xu (ind pop p1).X (ind pop p2).X rdraw.1).map
      Prod.fst) mdraw.1,
   mdraw.2)

/-- Produce `n` offspring decision vectors, threading the generator. -/
def makeOffsprings (pr : Problem) (pop : List Individual) :
    Nat → Nat → List (List ℚ) × Nat
  | 0, s => ([], s)
  | n + 1, s =>
      ((makeOne pr pop s).1 ::
        (makeOffsprings pr pop n (makeOne pr pop s).2).1,
       (makeOffsprings pr pop n (makeOne pr pop s).2).2)

/-- Modelled from the spec (§4.7 Duplicate Eliminator): drop offspring whose
decision vector duplicates an existing population member or an earlier
offspring. -/
def dedupGo : List (List ℚ) → List (List ℚ) → List (List ℚ)
  | _, [] => []
  | seen, x :: xs =>
      if x ∈ seen then dedupGo seen xs else x :: dedupGo (x :: seen) xs

/-- Modelled from the spec (§4.8 step 2): one generation — mating selection,
variation, duplicate elimination, offspring evaluation, merge and survival
truncation back to `pop_size`. -/
def step (pr : Problem) (cfg : AlgCfg) (st : AlgState) : AlgState :=
  let draws := makeOffsprings pr st.pop cfg.n_offsprings st.rng
  let offX := dedupGo (st.pop.map Individual.X) draws.1
  let off := offX.map (evalInd pr)
  let merged := st.pop ++ off
  { pop := (survival merged cfg.pop_size).map (ind (assignRankCrowd merged))
    gen := st.gen + 1
    evals := st.evals + off.length
    rng := draws.2 }

/-- Modelled from the spec (§4.8 step 1): sample and evaluate the initial
population and assign initial rank / crowding distance. -/
def initState (pr : Problem) (cfg : AlgCfg) (seed : Nat) : AlgState :=
  { pop := assignRankCrowd
      ((samplePop pr cfg.pop_size (lcg seed)).1.map (evalInd pr))
    gen := 0
    evals := cfg.pop_size
    rng := (samplePop pr cfg.pop_size (lcg seed)).2 }

/-- Run generations until the termination criterion fires (the fuel bound
matches the generation bound of the criterion, so the loop always
terminates). -/
def loop (pr : Problem) (cfg : AlgCfg) (term : Termination) :
    Nat → AlgState → AlgState
  | 0, st => st
  | fuel + 1, st =>
      if shouldStop term st then st
      else loop pr cfg term fuel (step pr cfg st)

/-- Modelled from the spec (§3): the `Result` — decision vectors and
objectives of the final front-0 members plus the total evaluation count. -/
structure Result where
  X : List (List ℚ)
  F : List (List ℚ)
  evals : Nat
deriving DecidableEq

def mkResult (st : AlgState) : Result :=
  { X := (st.pop.filter fun a => decide (a.rank = 0)).map Individual.X
    F := (st.pop.filter fun a => decide (a.rank = 0)).map Individual.F
    evals := st.evals }

/-- The algorithm object a caller passes to `minimize`: its configuration
plus the internal state a run would mutate. -/
structure Algorithm where
  cfg : AlgCfg
  state : Option AlgState := none
deriving DecidableEq

def runAlg (pr : Problem) (cfg : AlgCfg) (term : Termination)
    (seed : Nat) : AlgState :=
  loop pr cfg term term.max_gen (initState pr cfg seed)

/-- Modelled from the spec (§6 run entry point): `minimize` works on a deep
copy of the algorithm (and termination) object, running from a fresh state
derived only from the seed; the caller's object is handed back unmodified. -/
def minimize (pr : Problem) (alg : Algorithm) (term : Termination)
    (seed : Nat) : Result × Algorithm :=
  (mkResult (runAlg pr alg.cfg term seed), alg)

/-- C7: two invocations of `minimize` with the same problem, algorithm
configuration, termination criterion and seed produce identical `X`, `F` and
evaluation counts, and `minimize` hands the caller's algorithm object back
unmodified (defensive copy), so the second call — made with the object
returned by the first — sees exactly the same inputs. -/
theorem C7_minimize_deterministic (pr : Problem) (alg : Algorithm)
    (term : Termination) (seed : Nat) :
    (minimize pr alg term seed).2 = alg ∧
    (minimize pr ((minimize pr alg term seed).2) term seed).1.X =
      (minimize pr alg term seed).1.X ∧
    (minimize pr ((minimize pr alg term seed).2) term seed).1.F =
      (minimize pr alg term seed).1.F ∧
    (minimize pr ((minimize pr alg term seed).2) term seed).1.evals =
      (minimize pr alg term seed).1.evals :=
  ⟨rfl, rfl, rfl, rfl⟩

theorem samplePop_length (pr : Problem) :
    ∀ (n s : Nat), (samplePop pr n s).1.length = n := by
  intro n
  induction n with
  | zero => intro s; rfl
  | succ n ih =>
    intro s
    rw [samplePop, List.length_cons, ih]

/-- C8: with a termination criterion of zero generations the run still
terminates and returns a valid `Result` assembled from the initial population
(which carries its freshly assigned ranks and crowding distances and has
exactly `pop_size` members), rather than failing. -/
theorem C8_zero_generations (pr : Problem) (cfg : AlgCfg) (seed : Nat) :
    (minimize pr { cfg := cfg } { max_gen := 0 } seed).1 =
      mkResult (initState pr cfg seed) ∧
    (initState pr cfg seed).pop = assignRankCrowd
      ((samplePop pr cfg.pop_size (lcg seed)).1.map (evalInd pr)) ∧
    (initState pr cfg seed).pop.length = cfg.pop_size ∧
    (minimize pr { cfg := cfg } { max_gen := 0 } seed).1.evals =
      cfg.pop_size := by
  refine ⟨rfl, rfl, ?_, rfl⟩
  show (assignRankCrowd _).length = _
  rw [assignRankCrowd_length, List.length_map, samplePop_length]

/-! ### `MyProblem._evaluate` from the notebook -/

/-- Embedded from `docs/source/getting_started/part_2.ipynb`
(`MyProblem._evaluate`): objectives `[f1, f2]` and constraints `[g1, g2]` for
a decision vector `(x0, x1)`, with the notebook's reformulation — `f2` is the
negated maximization objective, `g2` is negated to flip its inequality, and
both constraints are normalized by their coefficients `0.18` and `4.8`. -/
def myProblemEvaluate (x0 x1 : ℚ) : List ℚ × List ℚ :=
  ([100 * (x0 ^ 2 + x1 ^ 2), (x0 - 1) ^ 2 + x1 ^ 2],
   [2 * (x0 - 0.1) * (x0 - 0.9) / 0.18,
    -(20 * (x0 - 0.4) * (x0 - 0.6)) / 4.8])

/-- C10: `MyProblem._evaluate` writes exactly `n_obj = 2` objective values and
`n_ieq_constr = 2` constraint values as a pure function of `x`, its
normalization is sign-preserving — `G[0] ≤ 0` iff
`2(x0-0.1)(x0-0.9) ≤ 0` and `G[1] ≤ 0` iff `20(x0-0.4)(x0-0.6) ≥ 0` — and
`F[1]` is the negation of the original maximization objective
`-(x0-1)² - x1²`. -/
theorem C10_myproblem_evaluate (x0 x1 : ℚ) :
    (myProblemEvaluate x0 x1).1.length = 2 ∧
    (myProblemEvaluate x0 x1).2.length = 2 ∧
    ((myProblemEvaluate x0 x1).2.getD 0 0 ≤ 0 ↔
      2 * (x0 - 0.1) * (x0 - 0.9) ≤ 0) ∧
    ((myProblemEvaluate x0 x1).2.getD 1 0 ≤ 0 ↔
      20 * (x0 - 0.4) * (x0 - 0.6) ≥ 0) ∧
    (myProblemEvaluate x0 x1).1.getD 1 0 = -(-(x0 - 1) ^ 2 - x1 ^ 2) := by
  refine ⟨rfl, rfl, ?_, ?_, ?_⟩
  · show 2 * (x0 - 0.1) * (x0 - 0.9) / 0.18 ≤ 0 ↔
      2 * (x0 - 0.1) * (x0 - 0.9) ≤ 0
    rw [div_le_iff₀ (by norm_num : (0:ℚ) < 0.18)]
    norm_num
  · show -(20 * (x0 - 0.4) * (x0 - 0.6)) / 4.8 ≤ 0 ↔
      20 * (x0 - 0.4) * (x0 - 0.6) ≥ 0
    rw [neg_div, neg_nonpos, le_div_iff₀ (by norm_num : (0:ℚ) < 4.8)]
    norm_num
  · show (x0 - 1) ^ 2 + x1 ^ 2 = -(-(x0 - 1) ^ 2 - x1 ^ 2)
    ring

end PymooSpec
